import Mathlib

/-!
# Verification of the vue-metamorph structural diff / minimal-patch engine

This file is a shallow embedding of the core transform pipeline of the
repository (`transform.ts`, together with the behaviour of the libraries it
drives: `deep-diff`, lodash `get` / `uniqWith`, and `magic-string`) and of the
`parseVue` input guard (`parse.ts`).

Modelling conventions:
* Template AST nodes are modelled by the JSON-like type `Val` (vue-eslint-parser
  nodes are plain JS objects).  The `parent` and `loc` bookkeeping fields are
  not represented: both are in the diff's ignore list, `parent` links are cyclic
  (unrepresentable as pure values) and the only use of `parent`
  (`node.parent === templateAst`) is modelled positionally (a node whose parent
  is the root fragment is exactly a top-level child of the root).  The `range`
  field *is* represented, since the patch engine reads it.
* Script (recast/babel) program ASTs are opaque to the core: the core only
  hands them to plugins and to the external printer.  They are a type
  parameter `π`, and the external renderer / parsers are explicit function
  arguments (the spec treats them as external collaborators).
* JS exceptions are modelled with `Except Err`: `transform.ts` contains no
  try/catch, so a raising step short-circuits the whole pass.
* In-place mutation by plugins is modelled by state passing: a plugin receives
  the current trees and returns the trees as they stand after its mutations,
  plus its mutation count.
-/

namespace VueMetamorph

/-- One step of a `deep-diff` path: a string object key or an array index. -/
inductive PathSeg where
  | key (s : String)
  | idx (n : Nat)
deriving DecidableEq, Repr

/-- JSON-like value tree modelling vue-eslint-parser template AST nodes
(plain JS objects / arrays / primitives).  Object fields are an ordered
association list, mirroring JS property insertion order, which `deep-diff`
iterates. -/
inductive Val where
  | vNull
  | vStr (s : String)
  | vNum (n : Int)
  | vBool (b : Bool)
  | vArr (xs : List Val)
  | vObj (fs : List (String × Val))
deriving Repr

/-- The `ignoreProperties` table of transform.ts: keys skipped by the diff prefilter. -/
def ignoredKey (k : String) : Bool :=
  k == "parent" || k == "loc" || k == "range" || k == "variables"

/-- JS property lookup `fs[k]` (first matching key of the association list). -/
def lookupField : List (String × Val) → String → Option Val
  | [], _ => none
  | (k', v) :: fs, k => if k' = k then some v else lookupField fs k

/-- JS property assignment `fs[k] = v`: replaces the existing key in place
(preserving property order) or appends a fresh key. -/
def setField : List (String × Val) → String → Val → List (String × Val)
  | [], k, v => [(k, v)]
  | (k', v') :: fs, k, v =>
    if k' = k then (k, v) :: fs else (k', v') :: setField fs k v

/-- lodash `get` along a non-empty path; `none` models JS `undefined`. -/
def jsGetWalk : Val → List PathSeg → Option Val
  | v, [] => some v
  | .vObj fs, .key k :: rest => (lookupField fs k).bind (fun v => jsGetWalk v rest)
  | .vArr xs, .idx i :: rest => (xs.get? i).bind (fun v => jsGetWalk v rest)
  | _, _ :: _ => none

/-- lodash `get(obj, path)`: on an empty path lodash returns `undefined`. -/
def jsGet (v : Val) (p : List PathSeg) : Option Val :=
  if p.isEmpty then none else jsGetWalk v p

/-- Reading `node.range` as `[start, end]`; `none` models the TypeError that a
missing / malformed range would raise at `originalNode.range[0]`. -/
def rangeOf : Val → Option (Nat × Nat)
  | .vObj fs =>
    match lookupField fs "range" with
    | some (.vArr (.vNum a :: .vNum b :: _)) => some (a.toNat, b.toNat)
    | _ => none
  | _ => none

/-! ## Structural equality up to bookkeeping fields, and well-formedness -/

mutual

/-- Erases every ignored (bookkeeping) field, recursively.  Two trees are
"equal up to bookkeeping" when their erasures coincide. -/
def eraseIgnored : Val → Val
  | .vObj fs => .vObj (eraseFields fs)
  | .vArr xs => .vArr (eraseList xs)
  | v => v

def eraseFields : List (String × Val) → List (String × Val)
  | [] => []
  | (k, v) :: fs =>
    if ignoredKey k then eraseFields fs else (k, eraseIgnored v) :: eraseFields fs

def eraseList : List Val → List Val
  | [] => []
  | v :: vs => eraseIgnored v :: eraseList vs

end

/-- No duplicate strings (JS objects cannot have duplicate property names). -/
def strNodup : List String → Bool
  | [] => true
  | k :: ks => !(decide (k ∈ ks)) && strNodup ks

def fieldKeys (fs : List (String × Val)) : List String := fs.map Prod.fst

mutual

/-- Well-formedness of a modelled JS value: object property names are
pairwise distinct (automatic for real JS objects). -/
def wfB : Val → Bool
  | .vObj fs => strNodup (fieldKeys fs) && wfFields fs
  | .vArr xs => wfList xs
  | _ => true

def wfFields : List (String × Val) → Bool
  | [] => true
  | (_, v) :: fs => wfB v && wfFields fs

def wfList : List Val → Bool
  | [] => true
  | v :: vs => wfB v && wfList vs

end

/-! ## The `deep-diff` library (`diff(lhs, rhs, prefilter)`)

Changes are `N` (property only on the right), `D` (property only on the left),
`E` (edit), and `A` (array length change at `path`/`index`, wrapping an added
or deleted element).  The prefilter `(_, name) => !!ignoreProperties[name]`
skips ignored property names at every depth; array indices are never ignored.
Arrays are compared index-aligned: extra indices first (descending), then the
common indices, recursed in descending index order.  Objects are compared by
key: left keys in insertion order (recursing, or emitting `D` when the key is
missing on the right), then right-only keys (emitting `N`). -/

/-- The element wrapped by an array (`A`) change: a `deep-diff` array item is
always an addition or a deletion. -/
inductive DItem where
  | added (v : Val)
  | deleted (v : Val)
deriving Repr

inductive Change where
  | N (path : List PathSeg) (rhs : Val)
  | D (path : List PathSeg) (lhs : Val)
  | E (path : List PathSeg) (lhs rhs : Val)
  | A (path : List PathSeg) (index : Nat) (item : DItem)
deriving Repr

def Change.path : Change → List PathSeg
  | .N p _ => p
  | .D p _ => p
  | .E p _ _ => p
  | .A p _ _ => p

/-- Tests `p.kind === 'E'`. -/
def Change.isEdit : Change → Bool
  | .E _ _ _ => true
  | _ => false

/-- The change introduces or removes content (kind `N`, `D`, or an `A` entry —
whose item is by construction an array addition or deletion), as opposed to an
in-place edit (`E`). -/
def Change.isNewOrDelete : Change → Bool
  | .E _ _ _ => false
  | _ => true

/-- Array length mismatch entries: indices `max-1` down to `min`, additions
when the right array is longer, deletions when the left one is. -/
def arrayExtras (ls rs : List Val) (p : List PathSeg) : List Change :=
  if ls.length < rs.length then
    (List.range (rs.length - ls.length)).map (fun k =>
      let i := rs.length - 1 - k
      Change.A p i (DItem.added (rs.getD i Val.vNull)))
  else if rs.length < ls.length then
    (List.range (ls.length - rs.length)).map (fun k =>
      let j := ls.length - 1 - k
      Change.A p j (DItem.deleted (ls.getD j Val.vNull)))
  else []

/-- Right-only object keys produce `N` entries (via a recursive call whose
prefilter still applies). -/
def newKeyChanges (lf rf : List (String × Val)) (p : List PathSeg) : List Change :=
  match rf with
  | [] => []
  | (k, rv) :: rest =>
    (if ignoredKey k || (lookupField lf k).isSome then []
     else [Change.N (p ++ [PathSeg.key k]) rv])
    ++ newKeyChanges lf rest p

mutual

/-- Structural recursive comparison of `deep-diff`, specialised to the
prefilter used by transform.ts. -/
def ddiffV : Val → Val → List PathSeg → List Change
  | .vArr ls, .vArr rs, p =>
    arrayExtras ls rs p ++ (ddiffZip ls rs 0 p).reverse.flatten
  | .vObj lf, .vObj rf, p => ddiffFields lf rf p ++ newKeyChanges lf rf p
  | .vNull, .vNull, _ => []
  | .vStr a, .vStr b, p => if a = b then [] else [.E p (.vStr a) (.vStr b)]
  | .vNum a, .vNum b, p => if a = b then [] else [.E p (.vNum a) (.vNum b)]
  | .vBool a, .vBool b, p => if a = b then [] else [.E p (.vBool a) (.vBool b)]
  | l, r, p => [.E p l r]

/-- Common array indices, one change group per index; the real library emits
the groups in descending index order, hence the `.reverse.flatten` above. -/
def ddiffZip : List Val → List Val → Nat → List PathSeg → List (List Change)
  | [], _, _, _ => []
  | _ :: _, [], _, _ => []
  | l :: ls, r :: rs, i, p =>
    ddiffV l r (p ++ [PathSeg.idx i]) :: ddiffZip ls rs (i + 1) p

def ddiffFields : List (String × Val) → List (String × Val) → List PathSeg → List Change
  | [], _, _ => []
  | (k, lv) :: lf, rf, p =>
    (if ignoredKey k then []
     else
       match lookupField rf k with
       | some rv => ddiffV lv rv (p ++ [PathSeg.key k])
       | none => [Change.D (p ++ [PathSeg.key k]) lv])
    ++ ddiffFields lf rf p

end

/-- Top-level `deepDiff(lhs, rhs, prefilter)` returns `undefined` when no change was
accumulated. -/
def deepDiffTop (l r : Val) : Option (List Change) :=
  let cs := ddiffV l r []
  if cs.isEmpty then none else some cs

/-! ## Change-set reduction (transform.ts lines 102–173) -/

/-- The owning-node path correction of transform.ts: drop the last segment
(the path points at a property); pop once more when the path now ends in
`startTag`; pop once more when the second-to-last segment is `key`. -/
def atMinus2 (p : List PathSeg) : Option PathSeg :=
  if 2 ≤ p.length then p.get? (p.length - 2) else none

def owningPath (p : List PathSeg) : List PathSeg :=
  let p1 := p.dropLast
  let p2 := if p1.getLast? = some (PathSeg.key "startTag") then p1.dropLast else p1
  if atMinus2 p2 = some (PathSeg.key "key") then p2.dropLast else p2

inductive Err where
  | pluginError (msg : String)
  | diffInconsistency
  | scriptIndexError
  | stringifyUndefined
deriving DecidableEq, Repr

structure ChangedNode where
  path : List PathSeg
  start : Nat
  stop : Nat
  node : Option Val
deriving Repr

/-- The `diff.map((p) => ...)` loop: computes the corrected path, updates the
running `rootNodeChanged` flag, reads the original node's range (from the root
when the flag is already set, raising `diffInconsistency` where the JS would
raise a TypeError on `undefined.range`), and records the live node at the
path (`undefined` is stored as `none`, only failing later when rendered). -/
def buildChanged (original live : Val) : List Change → Bool → Except Err (Bool × List ChangedNode)
  | [], flag => .ok (flag, [])
  | c :: cs, flag =>
    let path := owningPath c.path
    let flag' := flag || (decide (path.length ≤ 3) && !(Change.isEdit c))
    match (if flag' then some original else jsGet original path) with
    | none => .error .diffInconsistency
    | some onode =>
      match rangeOf onode with
      | none => .error .diffInconsistency
      | some se =>
        match buildChanged original live cs flag' with
        | .error e => .error e
        | .ok (fl, rest) =>
          .ok (fl, ⟨path, se.1, se.2,
            if path.isEmpty then some live else jsGet live path⟩ :: rest)

/-- The `uniqWith` comparator of transform.ts: equal-length paths are compared
for equality, otherwise the shorter path is compared with the corresponding
slice of the longer one. -/
def overlapCmp (a b : ChangedNode) : Bool :=
  if a.path.length = b.path.length then a.path = b.path
  else if a.path.length < b.path.length then a.path.isPrefixOf b.path
  else b.path.isPrefixOf a.path

/-- lodash `uniqWith`: keeps an element iff it is comparator-unrelated to every
previously kept element (so the first of each related group survives). -/
def uniqWithAux (cmp : α → α → Bool) : List α → List α → List α
  | _, [] => []
  | kept, x :: xs =>
    if kept.any (fun y => cmp x y) then uniqWithAux cmp kept xs
    else x :: uniqWithAux cmp (kept ++ [x]) xs

def uniqWith (cmp : α → α → Bool) (l : List α) : List α := uniqWithAux cmp [] l

/-! ## Dual-layer orchestration: splicing rendered scripts back (lines 71–93)

`traverseNodes` visits the whole fragment in document order, but the guard
`node.parent === templateAst` holds exactly for the root's direct children
(after `setParents`, a node's `parent` is its structural container, and no
strict subtree can be the whole root).  So the splice is a left-to-right pass
over the root's `children`, incrementing the shared counter `i` at each
matching host. -/

def jsStartsWith (s pat : String) : Bool := pat.data.isPrefixOf s.data

def jsEndsWith (s pat : String) : Bool := pat.data.isSuffixOf s.data

/-- Computes `node.children[0].value = (newCode starts with newline ? '' : '\n') +
newCode + '\n'`. -/
def wrapScript (newCode : String) : String :=
  (if jsStartsWith newCode "\n" then "" else "\n") ++ newCode ++ "\n"

def metamorphMarker : List Char := ("/* METAMORPH_START */").data

/-- A match of the regex `\/\* METAMORPH_START \*\/\n+` at the head of the
list: the marker followed by one or more newlines; returns the remainder. -/
def matchMarkerNl (l : List Char) : Option (List Char) :=
  if metamorphMarker.isPrefixOf l then
    let rest := l.drop metamorphMarker.length
    match rest with
    | '\n' :: _ => some (rest.dropWhile (fun c => c == '\n'))
    | _ => none
  else none

/-- Global left-to-right replacement of the regex by a single newline
(`.replace(/\/\* METAMORPH_START \*\/\n+/g, '\n')`); the fuel starts at the
list length and each step consumes at least one character. -/
def stripMetaAux : Nat → List Char → List Char
  | 0, l => l
  | _ + 1, [] => []
  | fuel + 1, c :: cs =>
    match matchMarkerNl (c :: cs) with
    | some rest => '\n' :: stripMetaAux fuel rest
    | none => c :: stripMetaAux fuel cs

def stripMeta (s : String) : String := ⟨stripMetaAux s.data.length s.data⟩

def fieldStr (v : Val) (k : String) : Option String :=
  match v with
  | .vObj fs =>
    match lookupField fs k with
    | some (.vStr s) => some s
    | _ => none
  | _ => none

def childrenOf (v : Val) : Option (List Val) :=
  match v with
  | .vObj fs =>
    match lookupField fs "children" with
    | some (.vArr cs) => some cs
    | _ => none
  | _ => none

/-- Tests `node.type === 'VElement' && node.name === 'script' &&
node.children[0]?.type === 'VText'`. -/
def isScriptHost (v : Val) : Bool :=
  decide (fieldStr v "type" = some "VElement") &&
  decide (fieldStr v "name" = some "script") &&
  decide (((childrenOf v).bind List.head?).bind (fun c => fieldStr c "type") = some "VText")

/-- Overwrites `node.children[0].value` with the given text. -/
def setScriptText (host : Val) (txt : String) : Val :=
  match host with
  | .vObj fs =>
    match lookupField fs "children" with
    | some (.vArr (.vObj cfs :: rest)) =>
      .vObj (setField fs "children" (.vArr (.vObj (setField cfs "value" (.vStr txt)) :: rest)))
    | _ => host
  | _ => host

/-- The splice pass over the root's children, with the shared counter `i`;
`scriptASTs[i]!` past the end of the list raises (modelled as
`scriptIndexError`). -/
def spliceChildren {π : Type} (printProg : π → String) (progs : List π) :
    Nat → List Val → Except Err (List Val)
  | _, [] => .ok []
  | i, c :: cs =>
    if isScriptHost c then
      match progs.get? i with
      | none => .error .scriptIndexError
      | some pr =>
        match spliceChildren printProg progs (i + 1) cs with
        | .error e => .error e
        | .ok rest => .ok (setScriptText c (wrapScript (stripMeta (printProg pr))) :: rest)
    else
      match spliceChildren printProg progs i cs with
      | .error e => .error e
      | .ok rest => .ok (c :: rest)

def spliceScripts {π : Type} (printProg : π → String) (progs : List π) (root : Val) :
    Except Err Val :=
  match root with
  | .vObj fs =>
    match lookupField fs "children" with
    | some (.vArr cs) =>
      match spliceChildren printProg progs 0 cs with
      | .error e => .error e
      | .ok cs' => .ok (.vObj (setField fs "children" (.vArr cs')))
    | _ => .ok root
  | _ => .ok root

/-! ## Plugins and the transform entry points -/

/-- CLI options mapping (opaque to the core). -/
abbrev Opts := List (String × String)

structure PluginCtx (π : Type) where
  scriptASTs : List π
  sfcAST : Option Val
  filename : String
  opts : Opts

/-- The state of the trees after a plugin's in-place mutations, plus the
mutation count it returns. -/
structure PluginOutcome (π : Type) where
  scriptASTs : List π
  sfcAST : Option Val
  count : Int

structure CodemodPlugin (π : Type) where
  name : String
  transform : PluginCtx π → Except Err (PluginOutcome π)

/-- A plugin mutates the fragment it was handed; it cannot create one where
`sfcAST` was `null` nor sever the `templateAst` binding. -/
def updTemplate (old new? : Option Val) : Option Val :=
  match old with
  | none => none
  | some t => some (new?.getD t)

/-- The plugin loop shared by both branches: invoke each plugin in order on
the current state and record `[codemod.name, count]`; an uncaught plugin
exception aborts the loop. -/
def runPlugins {σ π : Type} (step : σ → CodemodPlugin π → Except Err (σ × Int)) :
    List (CodemodPlugin π) → σ → Except Err (σ × List (String × Int))
  | [], st => .ok (st, [])
  | c :: cs, st =>
    match step st c with
    | .error e => .error e
    | .ok (st', n) =>
      match runPlugins step cs st' with
      | .error e => .error e
      | .ok (stF, rest) => .ok (stF, (c.name, n) :: rest)

/-- One plugin invocation of `transformVueFile`: context
`{scriptASTs, sfcAST: templateAst ?? null, filename, utils, opts}`. -/
def vueStep {π : Type} (filename : String) (opts : Opts)
    (st : List π × Option Val) (c : CodemodPlugin π) :
    Except Err ((List π × Option Val) × Int) :=
  match c.transform ⟨st.1, st.2, filename, opts⟩ with
  | .error e => .error e
  | .ok o => .ok ((o.scriptASTs, updTemplate st.2 o.sfcAST), o.count)

/-- One plugin invocation of `transformTypescriptFile`: context
`{scriptASTs: [ast], sfcAST: null, filename, utils, opts}`; the printed `ast`
is the (in-place mutated) first script tree. -/
def tsStep {π : Type} (filename : String) (opts : Opts) (a : π) (c : CodemodPlugin π) :
    Except Err (π × Int) :=
  match c.transform ⟨[a], none, filename, opts⟩ with
  | .error e => .error e
  | .ok o => .ok (o.scriptASTs.headD a, o.count)

structure TransformResult where
  code : String
  stats : List (String × Int)
deriving DecidableEq, Repr

/-- A MagicString range replacement in original coordinates. -/
abbrev Edit := Nat × Nat × String

def applyOneEdit (acc : String) (e : Edit) : String :=
  ⟨acc.data.take e.1 ++ e.2.2.data ++ acc.data.drop e.2.1⟩

def insertEditDesc (e : Edit) : List Edit → List Edit
  | [] => [e]
  | x :: xs => if x.1 ≤ e.1 then e :: x :: xs else x :: insertEditDesc e xs

def sortEditsDesc : List Edit → List Edit
  | [] => []
  | e :: es => insertEditDesc e (sortEditsDesc es)

/-- MagicString `toString` after a batch of `update` calls: all replacements
are keyed to original offsets (the reducer guarantees disjointness; like the
real patch applier, this model does not re-check it), so they can be applied
from the highest start offset down.  With no edits this is the original
string. -/
def applyEdits (code : String) (edits : List Edit) : String :=
  (sortEditsDesc edits).foldl applyOneEdit code

/-- Performs `ms.update(start, end, stringify(node))` for each surviving record; the
JS `stringify(undefined)` raises. -/
def renderRecords (stringifyNode : Val → String) : List ChangedNode → Except Err (List Edit)
  | [] => .ok []
  | r :: rs =>
    match r.node with
    | none => .error .stringifyUndefined
    | some n =>
      match renderRecords stringifyNode rs with
      | .error e => .error e
      | .ok es => .ok ((r.start, r.stop, stringifyNode n) :: es)

/-- Result of `parseVue` as consumed by transform.ts: the script program ASTs
and `sfcAST.templateBody?.parent` (the root `VDocumentFragment`, absent when
`templateBody` is undefined). -/
structure VueParsed (π : Type) where
  scriptASTs : List π
  template : Option Val

/-- The external collaborators: the recast printer for script ASTs, the
node renderer (`stringify`), and the two parsers. -/
structure Externals (π : Type) where
  printProg : π → String
  stringifyNode : Val → String
  parseVueF : String → VueParsed π
  parseTsF : String → Bool → π

/-- The diff / reduce / patch phase, running on the *already spliced* live
tree (transform.ts lines 95–175). -/
def vueDiffPhase {π : Type} (ext : Externals π) (code : String)
    (originalTemplate spliced : Val) (stats : List (String × Int)) :
    Except Err TransformResult :=
  match deepDiffTop originalTemplate spliced with
  | none => .ok ⟨code, stats⟩
  | some cs =>
    match buildChanged originalTemplate spliced cs false with
    | .error e => .error e
    | .ok (flag, recs) =>
      if flag then
        match rangeOf originalTemplate with
        | none => .error .diffInconsistency
        | some se => .ok ⟨applyEdits code [(se.1, se.2, ext.stringifyNode spliced)], stats⟩
      else
        match renderRecords ext.stringifyNode (uniqWith overlapCmp recs) with
        | .error e => .error e
        | .ok edits => .ok ⟨applyEdits code edits, stats⟩

/-- Everything after the plugin loop of `transformVueFile`: when a template
fragment exists, splice the rendered scripts into their hosts *first*, then
diff the snapshot against the spliced live tree. -/
def vueFinish {π : Type} (ext : Externals π) (code : String) (template? : Option Val)
    (st : List π × Option Val) (stats : List (String × Int)) :
    Except Err TransformResult :=
  match template? with
  | none => .ok ⟨code, stats⟩
  | some originalTemplate =>
    match spliceScripts ext.printProg st.1 (st.2.getD originalTemplate) with
    | .error e => .error e
    | .ok spliced => vueDiffPhase ext code originalTemplate spliced stats

/-- Models `transformVueFile`: parse, snapshot (`cloneDeep` is the identity on pure
values: `parsed.template` *is* the pre-mutation snapshot), run the plugins,
splice, diff, reduce, patch. -/
def transformVueFile {π : Type} (ext : Externals π) (code filename : String)
    (codemods : List (CodemodPlugin π)) (opts : Opts) : Except Err TransformResult :=
  let parsed := ext.parseVueF code
  match runPlugins (vueStep filename opts) codemods (parsed.scriptASTs, parsed.template) with
  | .error e => .error e
  | .ok (st, stats) => vueFinish ext code parsed.template st stats

/-- Tests `/\.[jt]sx$/.test(filename)`. -/
def isJsxTsx (filename : String) : Bool :=
  jsEndsWith filename ".jsx" || jsEndsWith filename ".tsx"

/-- Models `transformTypescriptFile`: parse, run the plugins, reprint with one
appended newline. -/
def transformTypescriptFile {π : Type} (ext : Externals π) (code filename : String)
    (codemods : List (CodemodPlugin π)) (opts : Opts) : Except Err TransformResult :=
  let ast := ext.parseTsF code (isJsxTsx filename)
  match runPlugins (tsStep filename opts) codemods ast with
  | .error e => .error e
  | .ok (astF, stats) => .ok ⟨ext.printProg astF ++ "\n", stats⟩

/-- The public entry point: dispatch on `filename.endsWith('.vue')`. -/
def transform {π : Type} (ext : Externals π) (code filename : String)
    (plugins : List (CodemodPlugin π)) (opts : Opts) : Except Err TransformResult :=
  if jsEndsWith filename ".vue" then transformVueFile ext code filename plugins opts
  else transformTypescriptFile ext code filename plugins opts

/-! ## The `parseVue` input guard (parse.ts lines 96–101) -/

def jsIncludesAux (pat : List Char) : List Char → Bool
  | [] => pat.isPrefixOf []
  | c :: cs => pat.isPrefixOf (c :: cs) || jsIncludesAux pat cs

/-- JS `code.includes(pat)`. -/
def jsIncludes (s pat : String) : Bool := jsIncludesAux pat.data s.data

/-- The text actually handed to `vueParser.parse`: when no `<template` occurs
in the source, `'\n<template></template>'` is appended first. -/
def parseVueInput (code : String) : String :=
  if jsIncludes code "<template" then code else code ++ "\n<template></template>"

/-! ## Lemmas about the collapse step -/

theorem uniqWithAux_sublist (cmp : α → α → Bool) (kept l : List α) :
    (uniqWithAux cmp kept l).Sublist l := by
  induction l generalizing kept with
  | nil => simp [uniqWithAux]
  | cons x xs ih =>
    simp only [uniqWithAux]
    split
    · exact (ih kept).cons x
    · exact (ih (kept ++ [x])).cons₂ x

theorem uniqWithAux_cmp_kept (cmp : α → α → Bool) (kept l : List α) :
    ∀ x ∈ uniqWithAux cmp kept l, ∀ y ∈ kept, cmp x y = false := by
  induction l generalizing kept with
  | nil => simp [uniqWithAux]
  | cons a as ih =>
    simp only [uniqWithAux]
    split
    · exact ih kept
    · rename_i hany
      intro x hx y hy
      rcases List.mem_cons.mp hx with rfl | hx
      · have hne : ¬ cmp x y = true := fun hc => hany (List.any_eq_true.mpr ⟨y, hy, hc⟩)
        exact Bool.eq_false_iff.mpr hne
      · exact ih (kept ++ [a]) x hx y (List.mem_append_left _ hy)

theorem uniqWithAux_pairwise (cmp : α → α → Bool)
    (hsymm : ∀ a b, cmp a b = cmp b a) (kept l : List α) :
    (uniqWithAux cmp kept l).Pairwise (fun a b => cmp a b = false) := by
  induction l generalizing kept with
  | nil => simp [uniqWithAux]
  | cons a as ih =>
    simp only [uniqWithAux]
    split
    · exact ih kept
    · refine List.Pairwise.cons ?_ (ih (kept ++ [a]))
      intro b hb
      have := uniqWithAux_cmp_kept cmp (kept ++ [a]) as b hb a (by simp)
      rw [hsymm]; exact this

theorem uniqWithAux_covers (cmp : α → α → Bool) (kept l : List α) :
    ∀ x ∈ l, x ∈ uniqWithAux cmp kept l ∨
      ∃ y, (y ∈ kept ∨ y ∈ uniqWithAux cmp kept l) ∧ cmp x y = true := by
  induction l generalizing kept with
  | nil => simp
  | cons a as ih =>
    intro x hx
    rcases List.mem_cons.mp hx with rfl | hx
    · simp only [uniqWithAux]
      split
      · rename_i hany
        obtain ⟨y, hy, hcy⟩ := List.any_eq_true.mp hany
        exact .inr ⟨y, .inl hy, hcy⟩
      · exact .inl (List.mem_cons_self _ _)
    · simp only [uniqWithAux]
      split
      · exact ih kept x hx
      · rcases ih (kept ++ [a]) x hx with h | ⟨y, hy | hy, hc⟩
        · exact .inl (List.mem_cons_of_mem _ h)
        · rcases List.mem_append.mp hy with h' | h'
          · exact .inr ⟨y, .inl h', hc⟩
          · have : y = a := by simpa using h'
            subst this
            exact .inr ⟨y, .inr (List.mem_cons_self _ _), hc⟩
        · exact .inr ⟨y, .inr (List.mem_cons_of_mem _ hy), hc⟩

theorem overlapCmp_symm (a b : ChangedNode) : overlapCmp a b = overlapCmp b a := by
  unfold overlapCmp
  rcases Nat.lt_trichotomy a.path.length b.path.length with h | h | h
  · rw [if_neg (by omega), if_pos h, if_neg (by omega), if_neg (by omega)]
  · rw [if_pos h, if_pos h.symm]
    simp [eq_comm]
  · rw [if_neg (by omega), if_neg (by omega), if_neg (by omega), if_pos h]

theorem overlapCmp_iff (a b : ChangedNode) :
    overlapCmp a b = true ↔ (a.path <+: b.path ∨ b.path <+: a.path) := by
  unfold overlapCmp
  split
  · rename_i hlen
    simp only [decide_eq_true_eq]
    constructor
    · intro h; exact .inl (h ▸ List.prefix_refl _)
    · rintro (h | h)
      · exact h.eq_of_length hlen
      · exact (h.eq_of_length hlen.symm).symm
  · rename_i hlen
    split
    · rename_i hlt
      rw [List.isPrefixOf_iff_prefix]
      constructor
      · exact .inl
      · rintro (h | h)
        · exact h
        · exact absurd h.length_le (by omega)
    · rename_i hge
      rw [List.isPrefixOf_iff_prefix]
      constructor
      · exact .inr
      · rintro (h | h)
        · exact absurd h.length_le (by omega)
        · exact h

/-! ## Lemmas about the reduction flag and the plugin loop -/

theorem buildChanged_flag (original live : Val) (cs : List Change) (b : Bool)
    (fl : Bool) (recs : List ChangedNode)
    (h : buildChanged original live cs b = .ok (fl, recs)) :
    fl = (b || cs.any (fun c => decide ((owningPath c.path).length ≤ 3) && !(Change.isEdit c))) := by
  induction cs generalizing b recs with
  | nil =>
    simp only [buildChanged, Except.ok.injEq, Prod.mk.injEq] at h
    simp [h.1.symm]
  | cons c cs ih =>
    simp only [buildChanged] at h
    split at h
    · exact absurd h (by simp)
    · split at h
      · exact absurd h (by simp)
      · split at h
        · exact absurd h (by simp)
        · rename_i fl' rest heq
          simp only [Except.ok.injEq, Prod.mk.injEq] at h
          obtain ⟨h1, h2⟩ := h
          subst h1
          rw [ih _ _ heq]
          simp [List.any_cons, Bool.or_assoc]

theorem runPlugins_stats {σ π : Type}
    (step : σ → CodemodPlugin π → Except Err (σ × Int))
    (cs : List (CodemodPlugin π)) (st stF : σ) (stats : List (String × Int))
    (h : runPlugins step cs st = .ok (stF, stats)) :
    stats.length = cs.length ∧
    ∀ k c, cs.get? k = some c →
      ∃ stk stk' n,
        runPlugins step (cs.take k) st = .ok (stk, stats.take k) ∧
        step stk c = .ok (stk', n) ∧
        stats.get? k = some (c.name, n) := by
  induction cs generalizing st stF stats with
  | nil =>
    simp only [runPlugins, Except.ok.injEq, Prod.mk.injEq] at h
    refine ⟨by simp [← h.2], ?_⟩
    intro k c hk
    simp at hk
  | cons c0 cs ih =>
    simp only [runPlugins] at h
    split at h
    · exact absurd h (by simp)
    · rename_i st' n hstep
      split at h
      · exact absurd h (by simp)
      · rename_i stF' rest hrec
        simp only [Except.ok.injEq, Prod.mk.injEq] at h
        obtain ⟨hF, hstats⟩ := h
        subst hstats
        subst hF
        obtain ⟨hlen, hall⟩ := ih st' stF' rest hrec
        refine ⟨by simp [hlen], ?_⟩
        intro k c hk
        cases k with
        | zero =>
          simp only [List.get?] at hk
          cases hk
          exact ⟨st, st', n, by simp [runPlugins], hstep, rfl⟩
        | succ k =>
          simp only [List.get?] at hk
          obtain ⟨stk, stk', m, h1, h2, h3⟩ := hall k c hk
          refine ⟨stk, stk', m, ?_, h2, h3⟩
          simp only [List.take_succ_cons, runPlugins, hstep, h1]

theorem runPlugins_error_of_step {σ π : Type}
    (step : σ → CodemodPlugin π → Except Err (σ × Int))
    (cs : List (CodemodPlugin π)) (st : σ) (k : Nat) (c : CodemodPlugin π)
    (stk : σ) (ps : List (String × Int)) (e : Err)
    (hc : cs.get? k = some c)
    (hpre : runPlugins step (cs.take k) st = .ok (stk, ps))
    (herr : step stk c = .error e) :
    runPlugins step cs st = .error e := by
  induction k generalizing cs st ps with
  | zero =>
    cases cs with
    | nil => simp at hc
    | cons c0 cs =>
      simp only [List.get?] at hc
      cases hc
      simp only [List.take_zero, runPlugins, Except.ok.injEq, Prod.mk.injEq] at hpre
      rw [← hpre.1] at herr
      simp [runPlugins, herr]
  | succ k ih =>
    cases cs with
    | nil => simp at hc
    | cons c0 cs =>
      simp only [List.get?] at hc
      simp only [List.take_succ_cons, runPlugins] at hpre
      split at hpre
      · exact absurd hpre (by simp)
      · rename_i st0 n0 hstep
        split at hpre
        · exact absurd hpre (by simp)
        · rename_i stk0 ps0 hrec
          simp only [Except.ok.injEq, Prod.mk.injEq] at hpre
          obtain ⟨h1, h2⟩ := hpre
          subst h1
          have := ih cs st0 ps0 hc hrec
          simp [runPlugins, hstep, this]

theorem vueDiffPhase_stats {π : Type} (ext : Externals π) (code : String) (o s : Val)
    (stats : List (String × Int)) (res : TransformResult)
    (h : vueDiffPhase ext code o s stats = .ok res) : res.stats = stats := by
  unfold vueDiffPhase at h
  split at h
  · simp only [Except.ok.injEq] at h
    rw [← h]
  · split at h
    · exact absurd h (by simp)
    · split at h
      · split at h
        · exact absurd h (by simp)
        · simp only [Except.ok.injEq] at h
          rw [← h]
      · split at h
        · exact absurd h (by simp)
        · simp only [Except.ok.injEq] at h
          rw [← h]

theorem vueFinish_stats {π : Type} (ext : Externals π) (code : String)
    (template? : Option Val) (st : List π × Option Val)
    (stats : List (String × Int)) (res : TransformResult)
    (h : vueFinish ext code template? st stats = .ok res) : res.stats = stats := by
  unfold vueFinish at h
  split at h
  · simp only [Except.ok.injEq] at h
    rw [← h]
  · split at h
    · exact absurd h (by simp)
    · exact vueDiffPhase_stats _ _ _ _ _ _ h

theorem transformVueFile_plugins {π : Type} (ext : Externals π) (code filename : String)
    (codemods : List (CodemodPlugin π)) (opts : Opts) (res : TransformResult)
    (h : transformVueFile ext code filename codemods opts = .ok res) :
    ∃ stF, runPlugins (vueStep filename opts) codemods
      ((ext.parseVueF code).scriptASTs, (ext.parseVueF code).template) = .ok (stF, res.stats) := by
  simp only [transformVueFile] at h
  split at h
  · exact absurd h (by simp)
  · rename_i st stats hrp
    exact ⟨st, by rw [hrp, vueFinish_stats _ _ _ _ _ _ h]⟩

theorem transformTypescriptFile_plugins {π : Type} (ext : Externals π) (code filename : String)
    (codemods : List (CodemodPlugin π)) (opts : Opts) (res : TransformResult)
    (h : transformTypescriptFile ext code filename codemods opts = .ok res) :
    ∃ astF, runPlugins (tsStep filename opts) codemods (ext.parseTsF code (isJsxTsx filename))
        = .ok (astF, res.stats) ∧ res.code = ext.printProg astF ++ "\n" := by
  simp only [transformTypescriptFile] at h
  split at h
  · exact absurd h (by simp)
  · rename_i astF stats hrp
    simp only [Except.ok.injEq] at h
    exact ⟨astF, by rw [hrp, ← h], by rw [← h]⟩

/-! ## The diff of two trees equal up to bookkeeping fields is empty -/

theorem eraseList_eq_map (xs : List Val) : eraseList xs = xs.map eraseIgnored := by
  induction xs with
  | nil => rfl
  | cons v vs ih => simp [eraseList, ih]

theorem lookupField_mem {fs : List (String × Val)} {k : String} {v : Val}
    (h : lookupField fs k = some v) : (k, v) ∈ fs := by
  induction fs with
  | nil => simp [lookupField] at h
  | cons f fs ih =>
    obtain ⟨k', v'⟩ := f
    simp only [lookupField] at h
    split at h
    · rename_i hk
      cases h
      subst hk
      exact List.mem_cons_self _ _
    · exact List.mem_cons_of_mem _ (ih h)

theorem lookupField_of_mem_nodup {fs : List (String × Val)} {k : String} {v : Val}
    (hnd : strNodup (fieldKeys fs) = true) (h : (k, v) ∈ fs) :
    lookupField fs k = some v := by
  induction fs with
  | nil => simp at h
  | cons f fs ih =>
    obtain ⟨k', v'⟩ := f
    simp only [fieldKeys, List.map_cons, strNodup, Bool.and_eq_true, Bool.not_eq_true',
      decide_eq_false_iff_not] at hnd
    rcases List.mem_cons.mp h with h0 | h0
    · cases h0
      simp [lookupField]
    · have hne : k' ≠ k := by
        intro he
        subst he
        exact hnd.1 (by simpa [fieldKeys] using List.mem_map_of_mem Prod.fst h0)
      simp only [lookupField, if_neg hne]
      exact ih hnd.2 h0

theorem lookupField_eraseFields (fs : List (String × Val)) (k : String)
    (hk : ignoredKey k = false) :
    lookupField (eraseFields fs) k = (lookupField fs k).map eraseIgnored := by
  induction fs with
  | nil => rfl
  | cons f fs ih =>
    obtain ⟨k', v'⟩ := f
    by_cases hik : ignoredKey k' = true
    · have hne : k' ≠ k := by
        intro he
        rw [he, hk] at hik
        cases hik
      simp [eraseFields, hik, lookupField, hne, ih]
    · simp only [Bool.not_eq_true] at hik
      by_cases hkk : k' = k
      · subst hkk
        simp [eraseFields, hik, lookupField]
      · simp [eraseFields, hik, lookupField, hkk, ih]

theorem wfFields_mem {fs : List (String × Val)} {k : String} {v : Val}
    (h : wfFields fs = true) (hm : (k, v) ∈ fs) : wfB v = true := by
  induction fs with
  | nil => simp at hm
  | cons f fs ih =>
    obtain ⟨k', v'⟩ := f
    simp only [wfFields, Bool.and_eq_true] at h
    rcases List.mem_cons.mp hm with h0 | h0
    · cases h0
      exact h.1
    · exact ih h.2 h0

theorem wfList_mem {xs : List Val} {v : Val}
    (h : wfList xs = true) (hm : v ∈ xs) : wfB v = true := by
  induction xs with
  | nil => simp at hm
  | cons x xs ih =>
    simp only [wfList, Bool.and_eq_true] at h
    rcases List.mem_cons.mp hm with h0 | h0
    · cases h0
      exact h.1
    · exact ih h.2 h0

theorem sizeOf_lt_vObj {fs : List (String × Val)} {k : String} {v : Val}
    (h : (k, v) ∈ fs) : sizeOf v < sizeOf (Val.vObj fs) := by
  have h1 := List.sizeOf_lt_of_mem h
  have h2 : sizeOf v < sizeOf (k, v) := by
    simp only [Prod.mk.sizeOf_spec]
    omega
  simp only [Val.vObj.sizeOf_spec]
  omega

theorem sizeOf_lt_vArr {xs : List Val} {v : Val}
    (h : v ∈ xs) : sizeOf v < sizeOf (Val.vArr xs) := by
  have h1 := List.sizeOf_lt_of_mem h
  simp only [Val.vArr.sizeOf_spec]
  omega

theorem arrayExtras_nil (ls rs : List Val) (p : List PathSeg)
    (h : ls.length = rs.length) : arrayExtras ls rs p = [] := by
  simp [arrayExtras, h]

theorem ddiffZip_nil_of (ls rs : List Val) (i : Nat) (p : List PathSeg)
    (h : ∀ j lv rv, ls.get? j = some lv → rs.get? j = some rv →
      ddiffV lv rv (p ++ [PathSeg.idx (i + j)]) = []) :
    ∀ g ∈ ddiffZip ls rs i p, g = [] := by
  induction ls generalizing rs i with
  | nil => simp [ddiffZip]
  | cons l ls ih =>
    cases rs with
    | nil => simp [ddiffZip]
    | cons r rs =>
      intro g hg
      simp only [ddiffZip] at hg
      rcases List.mem_cons.mp hg with rfl | hg
      · have := h 0 l r rfl rfl
        simpa using this
      · refine ih rs (i + 1) ?_ g hg
        intro j lv rv h1 h2
        have := h (j + 1) lv rv h1 h2
        rwa [show i + (j + 1) = i + 1 + j by omega] at this

theorem flatten_nil_of {β : Type} (L : List (List β)) (h : ∀ g ∈ L, g = []) :
    L.flatten = [] := by
  induction L with
  | nil => rfl
  | cons g L ih =>
    rw [List.flatten_cons, h g (List.mem_cons_self _ _), ih (fun g' hg' => h g' (List.mem_cons_of_mem _ hg'))]
    rfl

theorem ddiffFields_nil_of (lf rf : List (String × Val)) (p : List PathSeg)
    (h : ∀ k lv, ignoredKey k = false → (k, lv) ∈ lf →
      ∃ rv, lookupField rf k = some rv ∧ ddiffV lv rv (p ++ [PathSeg.key k]) = []) :
    ddiffFields lf rf p = [] := by
  induction lf with
  | nil => rfl
  | cons f lf ih =>
    obtain ⟨k, lv⟩ := f
    simp only [ddiffFields]
    by_cases hik : ignoredKey k = true
    · simp only [hik, if_true, List.nil_append]
      exact ih (fun k' lv' h1 h2 => h k' lv' h1 (List.mem_cons_of_mem _ h2))
    · simp only [Bool.not_eq_true] at hik
      obtain ⟨rv, hl, hd⟩ := h k lv hik (List.mem_cons_self _ _)
      simp only [hik, if_false, hl, hd, List.nil_append]
      exact ih (fun k' lv' h1 h2 => h k' lv' h1 (List.mem_cons_of_mem _ h2))

theorem newKeyChanges_nil_of (lf rf : List (String × Val)) (p : List PathSeg)
    (h : ∀ k rv, ignoredKey k = false → (k, rv) ∈ rf → (lookupField lf k).isSome = true) :
    newKeyChanges lf rf p = [] := by
  induction rf with
  | nil => rfl
  | cons f rf ih =>
    obtain ⟨k, rv⟩ := f
    simp only [newKeyChanges]
    by_cases hik : ignoredKey k = true
    · simp only [hik, Bool.true_or, if_true, List.nil_append]
      exact ih (fun k' rv' h1 h2 => h k' rv' h1 (List.mem_cons_of_mem _ h2))
    · simp only [Bool.not_eq_true] at hik
      have := h k rv hik (List.mem_cons_self _ _)
      simp only [hik, Bool.false_or, this, if_true, List.nil_append]
      exact ih (fun k' rv' h1 h2 => h k' rv' h1 (List.mem_cons_of_mem _ h2))

/-- Two trees that agree after erasing the bookkeeping fields produce an empty
diff (the prefilter skips exactly those fields). -/
theorem diff_nil_of_eraseEq (l r : Val) (p : List PathSeg)
    (he : eraseIgnored l = eraseIgnored r)
    (hl : wfB l = true) (hr : wfB r = true) : ddiffV l r p = [] := by
  match l, r with
  | .vNull, .vNull => rfl
  | .vStr a, .vStr b =>
    simp only [eraseIgnored, Val.vStr.injEq] at he
    subst he
    simp [ddiffV]
  | .vNum a, .vNum b =>
    simp only [eraseIgnored, Val.vNum.injEq] at he
    subst he
    simp [ddiffV]
  | .vBool a, .vBool b =>
    simp only [eraseIgnored, Val.vBool.injEq] at he
    subst he
    simp [ddiffV]
  | .vArr ls, .vArr rs =>
    simp only [eraseIgnored, Val.vArr.injEq] at he
    have hlen : ls.length = rs.length := by
      have := congrArg List.length he
      simpa [eraseList_eq_map] using this
    have hwl : wfList ls = true := by simpa [wfB] using hl
    have hwr : wfList rs = true := by simpa [wfB] using hr
    simp only [ddiffV]
    rw [arrayExtras_nil _ _ _ hlen]
    have hz : ∀ g ∈ ddiffZip ls rs 0 p, g = [] := by
      apply ddiffZip_nil_of
      intro j lv rv h1 h2
      refine diff_nil_of_eraseEq lv rv _ ?_ ?_ ?_
      · have := congrArg (fun xs => xs.get? j) he
        simp only [eraseList_eq_map, List.get?_eq_getElem?, List.getElem?_map] at this
        simp only [List.get?_eq_getElem?] at h1 h2
        rw [h1, h2] at this
        simp only [Option.map_some'] at this
        exact Option.some.inj this
      · exact wfList_mem hwl (List.get?_mem h1)
      · exact wfList_mem hwr (List.get?_mem h2)
    have : (ddiffZip ls rs 0 p).reverse.flatten = [] := by
      apply flatten_nil_of
      intro g hg
      exact hz g (List.mem_reverse.mp hg)
    rw [this]
    rfl
  | .vObj lf, .vObj rf =>
    simp only [eraseIgnored, Val.vObj.injEq] at he
    have hndl : strNodup (fieldKeys lf) = true := by
      have := hl
      simp only [wfB, Bool.and_eq_true] at this
      exact this.1
    have hwfl : wfFields lf = true := by
      have := hl
      simp only [wfB, Bool.and_eq_true] at this
      exact this.2
    have hndr : strNodup (fieldKeys rf) = true := by
      have := hr
      simp only [wfB, Bool.and_eq_true] at this
      exact this.1
    have hwfr : wfFields rf = true := by
      have := hr
      simp only [wfB, Bool.and_eq_true] at this
      exact this.2
    have hfields : ddiffFields lf rf p = [] := by
      apply ddiffFields_nil_of
      intro k lv hik hm
      have hlk : lookupField lf k = some lv := lookupField_of_mem_nodup hndl hm
      have h1 : lookupField (eraseFields lf) k = some (eraseIgnored lv) := by
        rw [lookupField_eraseFields _ _ hik, hlk]
        rfl
      rw [he] at h1
      rw [lookupField_eraseFields _ _ hik] at h1
      obtain ⟨rv, hrv, herv⟩ := Option.map_eq_some'.mp h1
      refine ⟨rv, hrv, diff_nil_of_eraseEq lv rv _ herv.symm ?_ ?_⟩
      · exact wfFields_mem hwfl hm
      · exact wfFields_mem hwfr (lookupField_mem hrv)
    have hnew : newKeyChanges lf rf p = [] := by
      apply newKeyChanges_nil_of
      intro k rv hik hm
      have hrk : lookupField rf k = some rv := lookupField_of_mem_nodup hndr hm
      have h1 : lookupField (eraseFields rf) k = some (eraseIgnored rv) := by
        rw [lookupField_eraseFields _ _ hik, hrk]
        rfl
      rw [← he] at h1
      rw [lookupField_eraseFields _ _ hik] at h1
      obtain ⟨lv0, hlv0, _⟩ := Option.map_eq_some'.mp h1
      rw [hlv0]
      rfl
    simp only [ddiffV]
    rw [hfields, hnew]
    rfl
  | .vNull, .vStr _ => simp [eraseIgnored] at he
  | .vNull, .vNum _ => simp [eraseIgnored] at he
  | .vNull, .vBool _ => simp [eraseIgnored] at he
  | .vNull, .vArr _ => simp [eraseIgnored] at he
  | .vNull, .vObj _ => simp [eraseIgnored] at he
  | .vStr _, .vNull => simp [eraseIgnored] at he
  | .vStr _, .vNum _ => simp [eraseIgnored] at he
  | .vStr _, .vBool _ => simp [eraseIgnored] at he
  | .vStr _, .vArr _ => simp [eraseIgnored] at he
  | .vStr _, .vObj _ => simp [eraseIgnored] at he
  | .vNum _, .vNull => simp [eraseIgnored] at he
  | .vNum _, .vStr _ => simp [eraseIgnored] at he
  | .vNum _, .vBool _ => simp [eraseIgnored] at he
  | .vNum _, .vArr _ => simp [eraseIgnored] at he
  | .vNum _, .vObj _ => simp [eraseIgnored] at he
  | .vBool _, .vNull => simp [eraseIgnored] at he
  | .vBool _, .vStr _ => simp [eraseIgnored] at he
  | .vBool _, .vNum _ => simp [eraseIgnored] at he
  | .vBool _, .vArr _ => simp [eraseIgnored] at he
  | .vBool _, .vObj _ => simp [eraseIgnored] at he
  | .vArr _, .vNull => simp [eraseIgnored] at he
  | .vArr _, .vStr _ => simp [eraseIgnored] at he
  | .vArr _, .vNum _ => simp [eraseIgnored] at he
  | .vArr _, .vBool _ => simp [eraseIgnored] at he
  | .vArr _, .vObj _ => simp [eraseIgnored] at he
  | .vObj _, .vNull => simp [eraseIgnored] at he
  | .vObj _, .vStr _ => simp [eraseIgnored] at he
  | .vObj _, .vNum _ => simp [eraseIgnored] at he
  | .vObj _, .vBool _ => simp [eraseIgnored] at he
  | .vObj _, .vArr _ => simp [eraseIgnored] at he
termination_by sizeOf l
decreasing_by
  · exact sizeOf_lt_vArr (List.get?_mem h1)
  · exact sizeOf_lt_vObj hm

/-- Corollary: a well-formed tree diffed against itself yields no changes. -/
theorem deepDiffTop_refl (t : Val) (h : wfB t = true) : deepDiffTop t t = none := by
  unfold deepDiffTop
  rw [diff_nil_of_eraseEq t t [] rfl h h]
  rfl

theorem deepDiffTop_none_of_eraseEq (l r : Val) (he : eraseIgnored l = eraseIgnored r)
    (hl : wfB l = true) (hr : wfB r = true) : deepDiffTop l r = none := by
  unfold deepDiffTop
  rw [diff_nil_of_eraseEq l r [] he hl hr]
  rfl

/-! ## The owning-path correction, restated as the spec words it

The spec description works from the end of the path: remove the last segment;
remove one more when the path now ends in `startTag`; remove one more when the
second-to-last segment is `key`.  `owningPathSpec` transcribes that wording
over the reversed path; `c6_owning_path` proves it coincides with the
source's `pop`/`at(-1)`/`at(-2)` computation. -/

def startTagPopSpecRev : List PathSeg → List PathSeg
  | b :: more => if b = PathSeg.key "startTag" then more else b :: more
  | [] => []

def keyPopSpecRev : List PathSeg → List PathSeg
  | a :: b :: more => if b = PathSeg.key "key" then b :: more else a :: b :: more
  | r => r

def owningPathSpecRev : List PathSeg → List PathSeg
  | [] => []
  | _ :: rest => keyPopSpecRev (startTagPopSpecRev rest)

/-- The claim's wording of the owning-node path computation: drop the last
segment, then one more if the path now ends in the tag-opening wrapper key,
then one more if the second-to-last segment is the directive key field — and
nothing else. -/
def owningPathSpec (p : List PathSeg) : List PathSeg :=
  (owningPathSpecRev p.reverse).reverse

theorem atMinus2_concat₂ (m : List PathSeg) (b a : PathSeg) :
    atMinus2 (m ++ [b, a]) = some b := by
  unfold atMinus2
  have hlen : (m ++ [b, a]).length = m.length + 2 := by simp
  rw [hlen, if_pos (by omega)]
  have hidx : m.length + 2 - 2 = m.length := by omega
  rw [hidx, List.get?_eq_getElem?, List.getElem?_append_right (by omega)]
  simp

theorem startTagPop_spec (q : List PathSeg) :
    (if q.getLast? = some (PathSeg.key "startTag") then q.dropLast else q)
      = (startTagPopSpecRev q.reverse).reverse := by
  induction q using List.reverseRecOn with
  | nil => rfl
  | append_singleton q' t ih =>
    clear ih
    rw [List.getLast?_concat]
    have hrev : (q' ++ [t]).reverse = t :: q'.reverse := by simp
    rw [hrev]
    simp only [startTagPopSpecRev]
    by_cases ht : t = PathSeg.key "startTag"
    · subst ht
      rw [if_pos rfl, if_pos rfl, List.dropLast_concat]
      simp
    · rw [if_neg (fun h => ht (Option.some.inj h)), if_neg ht]
      simp

theorem keyPop_spec (l : List PathSeg) :
    (if atMinus2 l = some (PathSeg.key "key") then l.dropLast else l)
      = (keyPopSpecRev l.reverse).reverse := by
  induction l using List.reverseRecOn with
  | nil => rfl
  | append_singleton m a ihm =>
    clear ihm
    induction m using List.reverseRecOn with
    | nil => rfl
    | append_singleton m' b ihm' =>
      clear ihm'
      rw [show m' ++ [b] ++ [a] = m' ++ [b, a] by simp]
      rw [atMinus2_concat₂]
      have hrev : (m' ++ [b, a]).reverse = a :: b :: m'.reverse := by simp
      rw [hrev]
      simp only [keyPopSpecRev]
      by_cases hb : b = PathSeg.key "key"
      · subst hb
        rw [if_pos rfl, if_pos rfl]
        rw [show m' ++ [PathSeg.key "key", a] = (m' ++ [PathSeg.key "key"]) ++ [a] by simp,
          List.dropLast_concat]
        simp
      · rw [if_neg (fun h => hb (Option.some.inj h)), if_neg hb]
        simp

/-! ## Characterisation of the splice pass (for C4) -/

def countHosts : List Val → Nat
  | [] => 0
  | c :: cs => (if isScriptHost c then 1 else 0) + countHosts cs

theorem spliceChildren_spec {π : Type} (printProg : π → String) (progs : List π)
    (i : Nat) (cs out : List Val)
    (h : spliceChildren printProg progs i cs = .ok out) :
    out.length = cs.length ∧
    ∀ j c, cs.get? j = some c →
      (isScriptHost c = false → out.get? j = some c) ∧
      (isScriptHost c = true →
        ∃ pr, progs.get? (i + countHosts (cs.take j)) = some pr ∧
          out.get? j = some (setScriptText c
            ((if jsStartsWith (stripMeta (printProg pr)) "\n" then "" else "\n")
              ++ stripMeta (printProg pr) ++ "\n"))) := by
  induction cs generalizing i out with
  | nil =>
    simp only [spliceChildren, Except.ok.injEq] at h
    subst h
    exact ⟨rfl, fun j c hj => by simp at hj⟩
  | cons c0 cs ih =>
    simp only [spliceChildren] at h
    by_cases h0 : isScriptHost c0 = true
    · rw [if_pos h0] at h
      split at h
      · exact absurd h (by simp)
      · rename_i pr hpr
        split at h
        · exact absurd h (by simp)
        · rename_i rest hrec
          simp only [Except.ok.injEq] at h
          subst h
          obtain ⟨hlen, hall⟩ := ih (i + 1) rest hrec
          refine ⟨by simp [hlen], ?_⟩
          intro j c hj
          cases j with
          | zero =>
            simp only [List.get?] at hj
            cases hj
            constructor
            · intro hfalse
              exact Bool.noConfusion (h0.symm.trans hfalse)
            · intro _
              refine ⟨pr, ?_, ?_⟩
              · simpa [countHosts] using hpr
              · simp [wrapScript]
          | succ j =>
            simp only [List.get?] at hj
            obtain ⟨hno, hyes⟩ := hall j c hj
            constructor
            · intro hf
              simpa using hno hf
            · intro ht
              obtain ⟨pr', hpr', hout⟩ := hyes ht
              refine ⟨pr', ?_, by simpa using hout⟩
              rw [show (c0 :: cs).take (j + 1) = c0 :: cs.take j from rfl]
              rw [show countHosts (c0 :: cs.take j)
                  = 1 + countHosts (cs.take j) by simp [countHosts, h0]]
              rw [show i + (1 + countHosts (cs.take j))
                  = i + 1 + countHosts (cs.take j) by omega]
              exact hpr'
    · rw [if_neg h0] at h
      split at h
      · exact absurd h (by simp)
      · rename_i rest hrec
        simp only [Except.ok.injEq] at h
        subst h
        obtain ⟨hlen, hall⟩ := ih i rest hrec
        refine ⟨by simp [hlen], ?_⟩
        intro j c hj
        cases j with
        | zero =>
          simp only [List.get?] at hj
          cases hj
          constructor
          · intro _
            rfl
          · intro ht
            exact absurd ht h0
        | succ j =>
          simp only [List.get?] at hj
          obtain ⟨hno, hyes⟩ := hall j c hj
          constructor
          · intro hf
            simpa using hno hf
          · intro ht
            obtain ⟨pr', hpr', hout⟩ := hyes ht
            refine ⟨pr', ?_, by simpa using hout⟩
            rw [show (c0 :: cs).take (j + 1) = c0 :: cs.take j from rfl]
            rw [show countHosts (c0 :: cs.take j)
                = countHosts (cs.take j) by simp [countHosts, h0]]
            exact hpr'

/-! ## String helpers -/

theorem string_data_append (a b : String) : (a ++ b).data = a.data ++ b.data := by
  cases a
  cases b
  rfl

theorem jsIncludesAux_append (pat a b : List Char) (h : jsIncludesAux pat b = true) :
    jsIncludesAux pat (a ++ b) = true := by
  induction a with
  | nil => simpa using h
  | cons c cs ih =>
    simp only [List.cons_append, jsIncludesAux, Bool.or_eq_true]
    exact .inr ih

/-! # The claims -/

/-! ### C1 — identity for empty / non-mutating plugin lists -/

def extC1ts : Externals Nat := ⟨fun _ => "x", fun _ => "", fun _ => ⟨[], none⟩, fun _ _ => 0⟩

/-- Claim C1, counterexample: `transform` on a non-`.vue` file always appends a
newline to the renderer's output (`transformTypescriptFile`, line 206), so on
the input text `"x"` (which does not end in a newline) the result cannot be
byte-identical to the input, whatever the renderer prints — here a renderer
that reproduces the source exactly still yields `"x\n" ≠ "x"`. -/
theorem c1_counterexample :
    transform extC1ts "x" "a.ts" [] [] = .ok ⟨"x\n", []⟩ ∧ ("x\n" : String) ≠ "x" :=
  ⟨rfl, by decide⟩

/-- Claim C1, amended: for `.vue` filenames, when the plugin pass leaves the
parsed state unchanged (zero plugins, or plugins performing no mutation) and
the external renderer round-trips the unmutated scripts (splicing them back
reproduces the template), the returned code is byte-identical to the input.
For other filenames the output is the renderer's output plus one appended
newline (see C9), identical to the input only when the input ends that way. -/
theorem c1_vue_identity {π : Type} (ext : Externals π) (code filename : String)
    (plugins : List (CodemodPlugin π)) (opts : Opts) (stats : List (String × Int))
    (hvue : jsEndsWith filename ".vue" = true)
    (hrun : runPlugins (vueStep filename opts) plugins
        ((ext.parseVueF code).scriptASTs, (ext.parseVueF code).template)
      = .ok (((ext.parseVueF code).scriptASTs, (ext.parseVueF code).template), stats))
    (hsplice : ∀ t, (ext.parseVueF code).template = some t →
      wfB t = true ∧ spliceScripts ext.printProg (ext.parseVueF code).scriptASTs t = .ok t) :
    transform ext code filename plugins opts = .ok ⟨code, stats⟩ := by
  unfold transform
  rw [if_pos hvue]
  simp only [transformVueFile]
  rw [hrun]
  cases htpl : (ext.parseVueF code).template with
  | none => simp [vueFinish]
  | some t =>
    obtain ⟨hwf, hsp⟩ := hsplice t htpl
    simp only [vueFinish, Option.getD_some]
    rw [hsp]
    simp only [vueDiffPhase]
    rw [deepDiffTop_refl t hwf]

def tC1 : Val := .vObj [("type", .vStr "VDocumentFragment"),
  ("range", .vArr [.vNum 0, .vNum 3]), ("children", .vArr [])]

def extC1v : Externals Nat := ⟨fun _ => "", fun _ => "", fun _ => ⟨[], some tC1⟩, fun _ _ => 0⟩

/-- Witness for the amended C1 at a concrete `.vue` input. -/
theorem c1_witness : transform extC1v "abc" "a.vue" [] [] = .ok ⟨"abc", []⟩ :=
  c1_vue_identity extC1v "abc" "a.vue" [] [] [] rfl rfl
    (fun t ht => by cases ht; exact ⟨rfl, rfl⟩)

/-! ### C2 — the root-changed flag -/

/-- Claim C2: on a completed reduction pass, the root-changed flag is set iff
some change entry has corrected owning path of depth ≤ 3 and a change kind
that introduces or removes content (`N`, `D`, or an `A` array entry, whose
wrapped item is by the `DItem` type always an addition or deletion) — and an
Edit-kind entry never sets the flag, regardless of depth. -/
theorem c2_root_flag_iff (original live : Val) (cs : List Change)
    (fl : Bool) (recs : List ChangedNode)
    (h : buildChanged original live cs false = .ok (fl, recs)) :
    ((fl = true) ↔ ∃ c ∈ cs, (owningPath c.path).length ≤ 3 ∧ Change.isNewOrDelete c = true) ∧
    (∀ c : Change, Change.isEdit c = true → Change.isNewOrDelete c = false) := by
  constructor
  · have hfl := buildChanged_flag original live cs false fl recs h
    rw [hfl]
    simp only [Bool.false_or, List.any_eq_true, Bool.and_eq_true, decide_eq_true_eq,
      Bool.not_eq_true']
    constructor
    · rintro ⟨c, hc, hlen, hedit⟩
      refine ⟨c, hc, hlen, ?_⟩
      cases c <;> simp_all [Change.isEdit, Change.isNewOrDelete]
    · rintro ⟨c, hc, hlen, hnd⟩
      refine ⟨c, hc, hlen, ?_⟩
      cases c <;> simp_all [Change.isEdit, Change.isNewOrDelete]
  · intro c h
    cases c <;> simp_all [Change.isEdit, Change.isNewOrDelete]

def origC2 : Val := .vObj [("type", .vStr "VDocumentFragment"), ("range", .vArr [.vNum 0, .vNum 9]),
  ("children", .vArr [.vObj [("type", .vStr "VText"), ("range", .vArr [.vNum 2, .vNum 7]),
    ("value", .vStr "a")]])]

def liveC2 : Val := .vObj [("type", .vStr "VDocumentFragment"), ("range", .vArr [.vNum 0, .vNum 9]),
  ("children", .vArr [.vObj [("type", .vStr "VText"), ("range", .vArr [.vNum 2, .vNum 7]),
    ("value", .vStr "b")]])]

def csC2 : List Change := [.E [.key "children", .idx 0, .key "value"] (.vStr "a") (.vStr "b")]

def recC2 : ChangedNode := ⟨[.key "children", .idx 0], 2, 7,
  some (.vObj [("type", .vStr "VText"), ("range", .vArr [.vNum 2, .vNum 7]),
    ("value", .vStr "b")])⟩

/-- Witness for C2 at a concrete single-edit diff (flag stays `false`). -/
theorem c2_witness :
    ((false = true) ↔ ∃ c ∈ csC2, (owningPath c.path).length ≤ 3 ∧ Change.isNewOrDelete c = true) ∧
    (∀ c : Change, Change.isEdit c = true → Change.isNewOrDelete c = false) :=
  c2_root_flag_iff origC2 liveC2 csC2 false [recC2] rfl

/-! ### C3 — the ancestor-collapse direction is order-dependent -/

def gOrigC3 : Val := .vObj [("type", .vStr "VText"), ("range", .vArr [.vNum 20, .vNum 30]),
  ("value", .vStr "old")]

def gLiveC3 : Val := .vObj [("type", .vStr "VText"), ("range", .vArr [.vNum 20, .vNum 30]),
  ("value", .vStr "new")]

def childOrigC3 : Val := .vObj [("type", .vStr "VElement"), ("range", .vArr [.vNum 10, .vNum 50]),
  ("name", .vStr "div"), ("children", .vArr [gOrigC3]),
  ("endTag", .vObj [("type", .vStr "VEndTag"), ("range", .vArr [.vNum 44, .vNum 50])])]

def childLiveC3 : Val := .vObj [("type", .vStr "VElement"), ("range", .vArr [.vNum 10, .vNum 50]),
  ("name", .vStr "div"), ("children", .vArr [gLiveC3]), ("endTag", .vNull)]

def textC3 : Val := .vObj [("type", .vStr "VText"), ("range", .vArr [.vNum 0, .vNum 5]),
  ("value", .vStr "hello")]

def origC3 : Val := .vObj [("type", .vStr "VDocumentFragment"),
  ("range", .vArr [.vNum 0, .vNum 100]), ("children", .vArr [textC3, childOrigC3])]

def liveC3 : Val := .vObj [("type", .vStr "VDocumentFragment"),
  ("range", .vArr [.vNum 0, .vNum 100]), ("children", .vArr [textC3, childLiveC3])]

def recDescC3 : ChangedNode :=
  ⟨[.key "children", .idx 1, .key "children", .idx 0], 20, 30, some gLiveC3⟩

def recAncC3 : ChangedNode := ⟨[.key "children", .idx 1], 10, 50, some childLiveC3⟩

/-- Claim C3, counterexample: a mutation pass that edits both a grandchild's
text (`children.1.children.0.value`) and the same element's `endTag` produces,
in real diff order (the `children` key precedes `endTag` in the element
object), the descendant record *before* the ancestor record.  lodash
`uniqWith` keeps the first of a comparator-related pair, so the collapse keeps
the descendant A and drops the structural ancestor B — the opposite of the
claim — even though B's path is a proper prefix of A's. -/
theorem c3_counterexample :
    buildChanged origC3 liveC3 (ddiffV origC3 liveC3 []) false
      = .ok (false, [recDescC3, recAncC3]) ∧
    recAncC3.path <+: recDescC3.path ∧ recAncC3.path ≠ recDescC3.path ∧
    uniqWith overlapCmp [recDescC3, recAncC3] = [recDescC3] ∧
    (∀ y ∈ uniqWith overlapCmp [recDescC3, recAncC3], y.path ≠ recAncC3.path) := by
  refine ⟨rfl, ⟨[PathSeg.key "children", PathSeg.idx 0], rfl⟩, by decide, rfl, ?_⟩
  intro y hy
  rw [show uniqWith overlapCmp [recDescC3, recAncC3] = [recDescC3] from rfl] at hy
  rw [List.mem_singleton] at hy
  subst hy
  decide

/-- Claim C3, amended: the collapse keeps the *first-encountered* record of
each group of records whose paths are equal or prefix-related, and drops the
later ones (so the ancestor survives exactly when its record precedes the
descendant's); the surviving records are pairwise prefix-free (in particular
exact-path duplicates are reduced to the first one), and every dropped record
overlaps some surviving record. -/
theorem c3_amended_collapse (recs : List ChangedNode) :
    (uniqWith overlapCmp recs).Sublist recs ∧
    (uniqWith overlapCmp recs).Pairwise
      (fun a b => ¬(a.path <+: b.path) ∧ ¬(b.path <+: a.path)) ∧
    (∀ r rest, (uniqWith overlapCmp (r :: rest)).head? = some r) ∧
    (∀ x ∈ recs, x ∈ uniqWith overlapCmp recs ∨
      ∃ y ∈ uniqWith overlapCmp recs, (x.path <+: y.path ∨ y.path <+: x.path)) := by
  refine ⟨uniqWithAux_sublist _ _ _, ?_, ?_, ?_⟩
  · have hp := uniqWithAux_pairwise overlapCmp overlapCmp_symm [] recs
    refine hp.imp ?_
    intro a b hab
    have h1 : ¬(a.path <+: b.path ∨ b.path <+: a.path) := by
      intro hor
      rw [(overlapCmp_iff a b).mpr hor] at hab
      cases hab
    exact ⟨fun h => h1 (.inl h), fun h => h1 (.inr h)⟩
  · intro r rest
    simp [uniqWith, uniqWithAux]
  · intro x hx
    rcases uniqWithAux_covers overlapCmp [] recs x hx with h | ⟨y, hy, hc⟩
    · exact .inl h
    · rcases hy with hy | hy
      · simp at hy
      · exact .inr ⟨y, hy, (overlapCmp_iff x y).mp hc⟩

/-- Witness for the amended C3 at the concrete record pair of the
counterexample: the dropped ancestor record overlaps a surviving record. -/
theorem c3_witness :
    recAncC3 ∈ uniqWith overlapCmp [recDescC3, recAncC3] ∨
    ∃ y ∈ uniqWith overlapCmp [recDescC3, recAncC3],
      (recAncC3.path <+: y.path ∨ y.path <+: recAncC3.path) :=
  (c3_amended_collapse [recDescC3, recAncC3]).2.2.2 recAncC3
    (List.mem_cons_of_mem _ (List.mem_cons_self _ _))

/-! ### C4 — the script splice-back, and its position before the diff -/

/-- Claim C4: (1) the splice pass maps the i-th top-level script host node
(in traversal order, counting only hosts) to the i-th embedded script tree:
the host's text child's value becomes the rendered text (after the
`METAMORPH_START` cleanup) prefixed with a newline exactly when it does not
already start with one, and suffixed with a newline; every non-host child is
untouched.  (2) In `vueFinish`, the diff phase is computed on the tree
returned by `spliceScripts`, i.e. the splice happens before the outer-tree
diff. -/
theorem c4_splice_scripts :
    (∀ {π : Type} (printProg : π → String) (progs : List π) (i : Nat) (cs out : List Val),
      spliceChildren printProg progs i cs = .ok out →
      out.length = cs.length ∧
      ∀ j c, cs.get? j = some c →
        (isScriptHost c = false → out.get? j = some c) ∧
        (isScriptHost c = true →
          ∃ pr, progs.get? (i + countHosts (cs.take j)) = some pr ∧
            out.get? j = some (setScriptText c
              ((if jsStartsWith (stripMeta (printProg pr)) "\n" then "" else "\n")
                ++ stripMeta (printProg pr) ++ "\n")))) ∧
    (∀ {π : Type} (ext : Externals π) (code : String) (orig : Val)
        (st : List π × Option Val) (stats : List (String × Int)),
      vueFinish ext code (some orig) st stats =
        match spliceScripts ext.printProg st.1 (st.2.getD orig) with
        | .error e => .error e
        | .ok spliced => vueDiffPhase ext code orig spliced stats) :=
  ⟨fun printProg progs i cs out h => spliceChildren_spec printProg progs i cs out h,
   fun _ _ _ _ _ => rfl⟩

def hostC4 : Val := .vObj [("type", .vStr "VElement"), ("name", .vStr "script"),
  ("range", .vArr [.vNum 0, .vNum 9]),
  ("children", .vArr [.vObj [("type", .vStr "VText"), ("value", .vStr "old")]])]

def printC4 : Nat → String := fun _ => "foo"

def outC4 : List Val := [setScriptText hostC4 "\nfoo\n"]

/-- Witness for C4 at a concrete one-host splice. -/
theorem c4_witness :
    ∃ pr, ([7] : List Nat).get? (0 + countHosts (([hostC4] : List Val).take 0)) = some pr ∧
      outC4.get? 0 = some (setScriptText hostC4
        ((if jsStartsWith (stripMeta (printC4 pr)) "\n" then "" else "\n")
          ++ stripMeta (printC4 pr) ++ "\n")) :=
  ((c4_splice_scripts.1 printC4 [7] 0 [hostC4] outC4 rfl).2 0 hostC4 rfl).2 rfl

/-! ### C5 — bookkeeping-only differences produce no patch -/

/-- Claim C5: when the spliced post-mutation tree agrees with the pre-mutation
snapshot after erasing the bookkeeping fields (`parent`, `loc`, `range`,
`variables` — the diff's ignore list), the structural diff is empty and the
pass returns the input text unchanged. -/
theorem c5_bookkeeping_identity {π : Type} (ext : Externals π) (code filename : String)
    (codemods : List (CodemodPlugin π)) (opts : Opts) (t : Val)
    (st : List π × Option Val) (stats : List (String × Int)) (spliced : Val)
    (htpl : (ext.parseVueF code).template = some t)
    (hrun : runPlugins (vueStep filename opts) codemods
        ((ext.parseVueF code).scriptASTs, (ext.parseVueF code).template) = .ok (st, stats))
    (hsp : spliceScripts ext.printProg st.1 (st.2.getD t) = .ok spliced)
    (hwt : wfB t = true) (hws : wfB spliced = true)
    (he : eraseIgnored t = eraseIgnored spliced) :
    deepDiffTop t spliced = none ∧
    transformVueFile ext code filename codemods opts = .ok ⟨code, stats⟩ := by
  have hdiff := deepDiffTop_none_of_eraseEq t spliced he hwt hws
  refine ⟨hdiff, ?_⟩
  simp only [transformVueFile]
  rw [hrun]
  simp only [vueFinish, htpl]
  rw [hsp]
  simp only [vueDiffPhase]
  rw [hdiff]

def tC5 : Val := .vObj [("type", .vStr "VDocumentFragment"),
  ("range", .vArr [.vNum 0, .vNum 3]), ("children", .vArr [])]

def tC5x : Val := .vObj [("type", .vStr "VDocumentFragment"),
  ("range", .vArr [.vNum 1, .vNum 4]), ("children", .vArr [])]

def plugC5 : CodemodPlugin Nat := ⟨"touch-range", fun _ => .ok ⟨[], some tC5x, 0⟩⟩

def extC5 : Externals Nat := ⟨fun _ => "", fun _ => "", fun _ => ⟨[], some tC5⟩, fun _ _ => 0⟩

/-- Witness for C5: a plugin that only rewrites the root's `range` field
leaves the output text identical to the input. -/
theorem c5_witness :
    deepDiffTop tC5 tC5x = none ∧
    transformVueFile extC5 "xyz" "a.vue" [plugC5] [] = .ok ⟨"xyz", [("touch-range", 0)]⟩ :=
  c5_bookkeeping_identity extC5 "xyz" "a.vue" [plugC5] [] tC5
    ([], some tC5x) [("touch-range", 0)] tC5x rfl rfl rfl rfl rfl rfl

/-! ### C6 — the owning-path correction -/

/-- Claim C6: the owning node path of a change entry is the entry's path with
its last segment removed, then one more segment removed when the path now ends
in the `startTag` wrapper key, then one more when the second-to-last segment
is the directive `key` field — and no other correction is applied
(`owningPathSpec` transcribes exactly these three steps of the spec). -/
theorem c6_owning_path (p : List PathSeg) : owningPath p = owningPathSpec p := by
  induction p using List.reverseRecOn with
  | nil => rfl
  | append_singleton q s ih =>
    clear ih
    simp only [owningPath, owningPathSpec]
    rw [List.dropLast_concat]
    have hrev : (q ++ [s]).reverse = s :: q.reverse := by simp
    rw [hrev]
    simp only [owningPathSpecRev]
    rw [startTagPop_spec q, keyPop_spec, List.reverse_reverse]

/-! ### C7 — stats: one (name, count) pair per plugin, in order -/

/-- Claim C7: the plugin loop produces exactly one stats entry per plugin, in
invocation order: the k-th entry pairs the k-th plugin's `name` with the count
returned by that plugin's `transform` call on the state reached after the
first k plugins; and the stats returned by `transform` are exactly the stats
of the corresponding plugin loop, in both the `.vue` and the flat-code
branch. -/
theorem c7_stats_per_plugin :
    (∀ {σ π : Type} (step : σ → CodemodPlugin π → Except Err (σ × Int))
        (cs : List (CodemodPlugin π)) (st stF : σ) (stats : List (String × Int)),
      runPlugins step cs st = .ok (stF, stats) →
      stats.length = cs.length ∧
      ∀ k c, cs.get? k = some c →
        ∃ stk stk' n,
          runPlugins step (cs.take k) st = .ok (stk, stats.take k) ∧
          step stk c = .ok (stk', n) ∧
          stats.get? k = some (c.name, n)) ∧
    (∀ {π : Type} (ext : Externals π) (code filename : String)
        (plugins : List (CodemodPlugin π)) (opts : Opts) (res : TransformResult),
      transform ext code filename plugins opts = .ok res →
      (jsEndsWith filename ".vue" = true →
        ∃ stF, runPlugins (vueStep filename opts) plugins
          ((ext.parseVueF code).scriptASTs, (ext.parseVueF code).template)
            = .ok (stF, res.stats)) ∧
      (jsEndsWith filename ".vue" = false →
        ∃ astF, runPlugins (tsStep filename opts) plugins
          (ext.parseTsF code (isJsxTsx filename)) = .ok (astF, res.stats))) := by
  constructor
  · intro σ π step cs st stF stats h
    exact runPlugins_stats step cs st stF stats h
  · intro π ext code filename plugins opts res h
    constructor
    · intro hv
      apply transformVueFile_plugins
      unfold transform at h
      rwa [if_pos hv] at h
    · intro hv
      have h' : transformTypescriptFile ext code filename plugins opts = .ok res := by
        unfold transform at h
        rwa [if_neg (by simp [hv])] at h
      obtain ⟨astF, h1, _⟩ := transformTypescriptFile_plugins ext code filename plugins opts res h'
      exact ⟨astF, h1⟩

def plugC7 : CodemodPlugin Nat := ⟨"p1", fun ctx => .ok ⟨ctx.scriptASTs, ctx.sfcAST, 2⟩⟩

/-- Witness for C7: one concrete plugin reporting 2 mutations. -/
theorem c7_witness :
    ∃ stk stk' n,
      runPlugins (vueStep "a.vue" []) (([plugC7] : List (CodemodPlugin Nat)).take 0)
        (([] : List Nat), (none : Option Val))
        = .ok (stk, ([("p1", (2 : Int))] : List (String × Int)).take 0) ∧
      vueStep "a.vue" [] stk plugC7 = .ok (stk', n) ∧
      ([("p1", (2 : Int))] : List (String × Int)).get? 0 = some (plugC7.name, n) :=
  ((c7_stats_per_plugin.1 (vueStep "a.vue" []) [plugC7] ([], none) ([], none)
    [("p1", 2)] rfl).2) 0 plugC7 rfl

/-! ### C8 — plugin exceptions propagate, no partial output -/

/-- Claim C8: a plugin `transform` that raises makes its step raise, a raising
step aborts the plugin loop with that error, and a failing plugin loop makes
`transform` return that error (in both branches) — so the pass returns either
a complete `TransformResult` or no result at all, never partial output. -/
theorem c8_plugin_error_propagates :
    (∀ {σ π : Type} (step : σ → CodemodPlugin π → Except Err (σ × Int))
        (cs : List (CodemodPlugin π)) (st : σ) (k : Nat) (c : CodemodPlugin π)
        (stk : σ) (ps : List (String × Int)) (e : Err),
      cs.get? k = some c →
      runPlugins step (cs.take k) st = .ok (stk, ps) →
      step stk c = .error e →
      runPlugins step cs st = .error e) ∧
    (∀ {π : Type} (filename : String) (opts : Opts) (st : List π × Option Val)
        (c : CodemodPlugin π) (e : Err),
      c.transform ⟨st.1, st.2, filename, opts⟩ = .error e →
      vueStep filename opts st c = .error e) ∧
    (∀ {π : Type} (filename : String) (opts : Opts) (a : π) (c : CodemodPlugin π) (e : Err),
      c.transform ⟨[a], none, filename, opts⟩ = .error e →
      tsStep filename opts a c = .error e) ∧
    (∀ {π : Type} (ext : Externals π) (code filename : String)
        (plugins : List (CodemodPlugin π)) (opts : Opts) (e : Err),
      (jsEndsWith filename ".vue" = true →
        runPlugins (vueStep filename opts) plugins
          ((ext.parseVueF code).scriptASTs, (ext.parseVueF code).template) = .error e →
        transform ext code filename plugins opts = .error e) ∧
      (jsEndsWith filename ".vue" = false →
        runPlugins (tsStep filename opts) plugins
          (ext.parseTsF code (isJsxTsx filename)) = .error e →
        transform ext code filename plugins opts = .error e)) := by
  refine ⟨?_, ?_, ?_, ?_⟩
  · intro σ π step cs st k c stk ps e hc hpre herr
    exact runPlugins_error_of_step step cs st k c stk ps e hc hpre herr
  · intro π filename opts st c e h
    simp [vueStep, h]
  · intro π filename opts a c e h
    simp [tsStep, h]
  · intro π ext code filename plugins opts e
    constructor
    · intro hv hrp
      unfold transform
      rw [if_pos hv]
      simp only [transformVueFile]
      rw [hrp]
    · intro hv hrp
      unfold transform
      rw [if_neg (by simp [hv])]
      simp only [transformTypescriptFile]
      rw [hrp]

def plugBoom : CodemodPlugin Nat := ⟨"boom", fun _ => .error (.pluginError "boom")⟩

def extC8 : Externals Nat := ⟨fun _ => "", fun _ => "", fun _ => ⟨[], none⟩, fun _ _ => 0⟩

/-- Witness for C8: a raising plugin makes `transform` return its error. -/
theorem c8_witness :
    transform extC8 "x" "a.vue" [plugBoom] [] = .error (.pluginError "boom") :=
  (c8_plugin_error_propagates.2.2.2 extC8 "x" "a.vue" [plugBoom] []
    (.pluginError "boom")).1 rfl rfl

/-! ### C9 — the flat-code branch appends one newline -/

/-- Claim C9: for a filename not ending in `.vue`, the code returned by
`transform` is exactly the renderer's printed output of the (possibly
mutated) program followed by one appended newline, so the output always ends
in a newline even when the renderer's output does not. -/
theorem c9_ts_appends_newline {π : Type} (ext : Externals π) (code filename : String)
    (plugins : List (CodemodPlugin π)) (opts : Opts) (res : TransformResult)
    (hf : jsEndsWith filename ".vue" = false)
    (h : transform ext code filename plugins opts = .ok res) :
    (∃ astF, runPlugins (tsStep filename opts) plugins (ext.parseTsF code (isJsxTsx filename))
        = .ok (astF, res.stats) ∧ res.code = ext.printProg astF ++ "\n") ∧
    res.code.data.getLast? = some '\n' := by
  have h' : transformTypescriptFile ext code filename plugins opts = .ok res := by
    unfold transform at h
    rwa [if_neg (by simp [hf])] at h
  obtain ⟨astF, h1, h2⟩ := transformTypescriptFile_plugins ext code filename plugins opts res h'
  refine ⟨⟨astF, h1, h2⟩, ?_⟩
  rw [h2, string_data_append]
  rw [show ("\n" : String).data = ['\n'] from rfl]
  exact List.getLast?_concat _

/-- Witness for C9 at a concrete non-`.vue` input. -/
theorem c9_witness :
    (∃ astF, runPlugins (tsStep "a.ts" []) ([] : List (CodemodPlugin Nat))
        (extC1ts.parseTsF "x" (isJsxTsx "a.ts"))
        = .ok (astF, ([] : List (String × Int))) ∧
      (⟨"x\n", []⟩ : TransformResult).code = extC1ts.printProg astF ++ "\n") ∧
    (⟨"x\n", []⟩ : TransformResult).code.data.getLast? = some '\n' :=
  c9_ts_appends_newline extC1ts "x" "a.ts" [] [] ⟨"x\n", []⟩ rfl rfl

/-! ### C10 — the `<template>` fallback of `parseVue` -/

/-- Claim C10: when the input of `parseVue` does not contain `<template`, the
string `"\n<template></template>"` is appended before parsing; the text handed
to the parser therefore always contains `<template`, so for any parser that
produces a non-null template body on such inputs the subsequent non-null
assertion on `templateBody` cannot fail. -/
theorem c10_template_guard {τ : Type} (vueParse : String → Option τ)
    (hparser : ∀ c, jsIncludes c "<template" = true → vueParse c ≠ none) (code : String) :
    (jsIncludes code "<template" = false →
      parseVueInput code = code ++ "\n<template></template>") ∧
    jsIncludes (parseVueInput code) "<template" = true ∧
    vueParse (parseVueInput code) ≠ none := by
  have hmain : jsIncludes (parseVueInput code) "<template" = true := by
    unfold parseVueInput
    split
    · rename_i h
      exact h
    · unfold jsIncludes
      rw [string_data_append]
      apply jsIncludesAux_append
      decide
  refine ⟨?_, hmain, hparser _ hmain⟩
  intro hno
  unfold parseVueInput
  rw [if_neg (by simp [hno])]

def vueParseW : String → Option Unit :=
  fun c => if jsIncludes c "<template" then some () else none

/-- Witness for C10 at a concrete template-free input. -/
theorem c10_witness :
    (jsIncludes "abc" "<template" = false →
      parseVueInput "abc" = "abc" ++ "\n<template></template>") ∧
    jsIncludes (parseVueInput "abc") "<template" = true ∧
    vueParseW (parseVueInput "abc") ≠ none :=
  c10_template_guard vueParseW (fun c h => by simp [vueParseW, h]) "abc"

end VueMetamorph
